import Mathlib

/-!
Shallow embedding of the `ravends` repository (src/lz10.rs, src/main.rs).

Bytes are modelled as `Nat` values (a Rust `u8` is always `< 256`; theorems
that depend on byte bounds carry that hypothesis explicitly).  A Rust
`impl Read` over a byte slice is modelled as a `List Nat` consumed from the
front; a failed read (`std::io::Error`) is the `readFailed` error value.
A Rust panic (out-of-bounds slice index) is modelled as `Option.none` in the
functions that can reach one.
-/

/-- Errors of `decompress_lz10` (enum `Lz10DecompressionError` in
src/lz10.rs / src/main.rs).  `readFailed` models the `Io` variant, the
error produced when the underlying reader has too few bytes left. -/
inductive Lz10Error where
  | readFailed
  | invalidSize
  | cannotReferencePastData
  | magicNumberMismatch (found : Nat)
deriving DecidableEq, Repr

/-- Result of processing the (remaining) bits of one decision byte:
either an error, an early `return Ok(output)` triggered by the size check,
or fall through to the next decision byte with the remaining input and the
output so far. -/
inductive StepRes where
  | err (e : Lz10Error)
  | done (out : List Nat)
  | more (rest : List Nat) (out : List Nat)
deriving DecidableEq, Repr

/-- The back-reference copy loop of src/lz10.rs lines 47-49:
`for point_byte in 0..length { output.push(output[window_offset + point_byte]) }`.
`win` is `window_offset`, `k` is `point_byte`, `n` counts the iterations
still to run.  The index `win + k` is always in bounds when `win` is below
the initial output length, so the `getD` default is never taken there. -/
def pushRun (win : Nat) : Nat → Nat → List Nat → List Nat
  | _, 0, out => out
  | k, n + 1, out => pushRun win (k + 1) n (out ++ [out.getD (win + k) 0])

/-- The inner `for bit in (0..8).rev() ...` loop of `decompress_lz10`
(src/lz10.rs lines 38-56).  `n` bits of the decision byte `d` remain to be
processed; the bit examined next is bit `n - 1` (so 8 counts down through
bits 7,6,...,0, most significant first).  `s` is the declared decompressed
size; the size check runs after each appended unit, exactly as in the
source. -/
def processBits (s d : Nat) : Nat → List Nat → List Nat → StepRes
  | 0, input, out => .more input out
  | n + 1, input, out =>
    if d &&& (1 <<< n) ≠ 0 then
      match input with
      | b0 :: b1 :: rest =>
        let pointerData := 256 * b0 + b1
        let len := (pointerData >>> 12) + 3
        let off := pointerData &&& 0xFFF
        if out.length ≤ off then .err .cannotReferencePastData
        else
          let out2 := pushRun (out.length - off - 1) 0 len out
          if s ≤ out2.length then .done out2
          else processBits s d n rest out2
      | _ => .err .readFailed
    else
      match input with
      | b :: rest =>
        let out2 := out ++ [b]
        if s ≤ out2.length then .done out2
        else processBits s d n rest out2
      | [] => .err .readFailed

/-- The outer `while let Ok(decision_byte) = reader.read_u8()` loop of
`decompress_lz10` (src/lz10.rs lines 37-57).  A failed read of the decision
byte (empty input) ends the loop with `Ok(output)`.  `fuel` bounds the
number of iterations; `decompress_lz10` passes the remaining input length,
which is an upper bound on the iteration count because every iteration
consumes at least the decision byte itself, so the fuel-exhausted case with
input left is never reached from `decompress_lz10`. -/
def mainLoop (s : Nat) : Nat → List Nat → List Nat → Except Lz10Error (List Nat)
  | _, [], out => .ok out
  | 0, _ :: _, out => .ok out
  | fuel + 1, d :: rest, out =>
    match processBits s d 8 rest out with
    | .err e => .error e
    | .done o => .ok o
    | .more rest2 out2 => mainLoop s fuel rest2 out2

/-- `decompress_lz10` (src/lz10.rs lines 18-51, identical copy in
src/main.rs lines 27-59): read the magic byte (must be 0x10), the 24-bit
little-endian declared decompressed size (must be nonzero), then run the
decision-byte loop on the remaining input with empty initial output. -/
def decompress_lz10 (input : List Nat) : Except Lz10Error (List Nat) :=
  match input with
  | [] => .error .readFailed
  | magicNum :: rest =>
    if magicNum ≠ 0x10 then .error (.magicNumberMismatch magicNum)
    else
      match rest with
      | b0 :: b1 :: b2 :: rest2 =>
        let size := b0 + 256 * b1 + 65536 * b2
        if size = 0 then .error .invalidSize
        else mainLoop size rest2.length rest2 []
      | _ => .error .readFailed

/-- The 24-bit little-endian declared decompressed size field of an LZ10
stream (bytes 1..3 of the input), as read by `decompress_lz10`; 0 when the
input is too short to contain it. -/
def declaredSize : List Nat → Nat
  | _ :: b0 :: b1 :: b2 :: _ => b0 + 256 * b1 + 65536 * b2
  | _ => 0






/-- Reading a 32-bit little-endian integer from a cursor, as
`byteorder::ReadBytesExt::read_u32::<LittleEndian>` does on a `&[u8]`
reader in src/main.rs: consume four bytes from the front or fail. -/
def readU32LE : List Nat → Option (Nat × List Nat)
  | b0 :: b1 :: b2 :: b3 :: rest =>
    some (b0 + 256 * b1 + 65536 * b2 + 16777216 * b3, rest)
  | _ => none

/-- Errors of `parse_text_file` (enum `ParseTextError` in src/main.rs):
`readFailed` models the `Io` variant (a failed `read_u32`), `utf16Failed`
models the `Utf16` variant (`DecodeUtf16Error`). -/
inductive ParseTextError where
  | readFailed
  | utf16Failed
deriving DecidableEq, Repr

/-- The UTF-16 code-unit stream an entry decodes, as built in
src/main.rs lines 77-80: `pointer_data.chunks_exact(2)` (a trailing odd
byte is dropped), each chunk read as a little-endian `u16`, stopping at the
first zero unit (`take_while(|&ch| ch != 0)`). -/
def utf16Units : List Nat → List Nat
  | b0 :: b1 :: rest =>
    let u := b0 + 256 * b1
    if u = 0 then [] else u :: utf16Units rest
  | _ => []

/-- `char::decode_utf16` followed by `collect::<Result<String, _>>`
(src/main.rs lines 76-82): a non-surrogate unit is a scalar value, a high
surrogate must be followed by a low surrogate (yielding a supplementary
scalar value), anything else is a `DecodeUtf16Error`, which the `collect`
surfaces as the first error.  Characters are modelled as their code
points. -/
def decodeUtf16 : List Nat → Except Unit (List Nat)
  | [] => .ok []
  | u :: rest =>
    if u < 0xD800 ∨ 0xE000 ≤ u then
      (decodeUtf16 rest).map (fun cs => u :: cs)
    else if u < 0xDC00 then
      match rest with
      | u2 :: rest2 =>
        if 0xDC00 ≤ u2 ∧ u2 < 0xE000 then
          (decodeUtf16 rest2).map
            (fun cs => (0x10000 + (u - 0xD800) * 0x400 + (u2 - 0xDC00)) :: cs)
        else .error ()
      | [] => .error ()
    else .error ()

/-- The per-entry loop body of `parse_text_file` (src/main.rs lines 72-85),
iterated over the declared entry count.  `data` is the whole buffer, the
second list argument is the header cursor from which the next 32-bit
pointer is read.  `&data[pointer..]` panics when `pointer > data.len()`;
the panic is modelled as `none`.  The `collect::<Result<Vec<_>, _>>` stops
at the first error, so an entry is only examined after all previous entries
decoded successfully. -/
def parseEntries (data : List Nat) :
    Nat → List Nat → Option (Except ParseTextError (List (List Nat)))
  | 0, _ => some (.ok [])
  | n + 1, header =>
    match readU32LE header with
    | none => some (.error .readFailed)
    | some (pointer, header2) =>
      if data.length < pointer then none
      else
        match decodeUtf16 (utf16Units (data.drop pointer)) with
        | .error _ => some (.error .utf16Failed)
        | .ok str =>
          match parseEntries data n header2 with
          | none => none
          | some (.error e) => some (.error e)
          | some (.ok strs) => some (.ok (str :: strs))

/-- `parse_text_file` (src/main.rs lines 69-86): read the 32-bit
little-endian entry count from the front of the buffer, then decode that
many pointer-addressed null-terminated UTF-16 strings.  `none` models a
panic (an entry pointer past the end of the buffer). -/
def parse_text_file (data : List Nat) :
    Option (Except ParseTextError (List (List Nat))) :=
  match readU32LE data with
  | none => some (.error .readFailed)
  | some (textCount, header) => parseEntries data textCount header

/-- Reading `u32::from_le_bytes(rom[off..=off+3].try_into().unwrap())`
(src/main.rs lines 177-181): the slice panics (`none`) when the buffer is
shorter than `off + 4`. -/
def sliceU32LE (rom : List Nat) (off : Nat) : Option Nat :=
  if off + 4 ≤ rom.length then
    some (rom.getD off 0 + 256 * rom.getD (off + 1) 0 +
      65536 * rom.getD (off + 2) 0 + 16777216 * rom.getD (off + 3) 0)
  else none

/-- The four header-field reads of `Commands::Unpack` (src/main.rs lines
177-181): name-table offset/size at 0x40/0x44 and allocation-table
offset/size at 0x48/0x4C, each a 32-bit little-endian slice read that
panics (`none`) when the ROM is too short, evaluated in source order. -/
def readRomHeaderFields (rom : List Nat) : Option (Nat × Nat × Nat × Nat) :=
  match sliceU32LE rom 0x40 with
  | none => none
  | some fntAddr =>
    match sliceU32LE rom 0x44 with
    | none => none
    | some fntSize =>
      match sliceU32LE rom 0x48 with
      | none => none
      | some fatAddr =>
        match sliceU32LE rom 0x4C with
        | none => none
        | some fatSize => some (fntAddr, fntSize, fatAddr, fatSize)

/-- The three-way classification of one input buffer shared by
`Commands::Identify` (src/main.rs lines 152-164) and the per-file branch of
`Commands::Unpack` (src/main.rs lines 196-230): raw original bytes when
decompression fails, the decompressed bytes when text decoding fails, the
decoded strings when both succeed.  `none` models a panic propagating out
of `parse_text_file`. -/
inductive Classification where
  | raw (payload : List Nat)
  | decompressedBinary (payload : List Nat)
  | text (strings : List (List Nat))
deriving DecidableEq, Repr

/-- The classification step applied to one buffer, as in
`Commands::Identify` and per file in `Commands::Unpack`. -/
def classify (data : List Nat) : Option Classification :=
  match decompress_lz10 data with
  | .error _ => some (.raw data)
  | .ok d =>
    match parse_text_file d with
    | none => none
    | some (.error _) => some (.decompressedBinary d)
    | some (.ok strs) => some (.text strs)





/-- Result type of the instrumented twin of `processBits`: identical to
`StepRes` except that the size-stop exit also carries the input left unread
at the moment `return Ok(output)` fires, to make statements about input
consumption expressible. -/
inductive StepResAux where
  | err (e : Lz10Error)
  | done (rest : List Nat) (out : List Nat)
  | more (rest : List Nat) (out : List Nat)
deriving DecidableEq, Repr

/-- Instrumented twin of `processBits`: same translation of the inner bit
loop of src/lz10.rs lines 38-56 step for step, except that the `done` exit
additionally records the unread input.  `processBitsAux_refines` proves it
projects onto `processBits`. -/
def processBitsAux (s d : Nat) : Nat → List Nat → List Nat → StepResAux
  | 0, input, out => .more input out
  | n + 1, input, out =>
    if d &&& (1 <<< n) ≠ 0 then
      match input with
      | b0 :: b1 :: rest =>
        let pointerData := 256 * b0 + b1
        let len := (pointerData >>> 12) + 3
        let off := pointerData &&& 0xFFF
        if out.length ≤ off then .err .cannotReferencePastData
        else
          let out2 := pushRun (out.length - off - 1) 0 len out
          if s ≤ out2.length then .done rest out2
          else processBitsAux s d n rest out2
      | _ => .err .readFailed
    else
      match input with
      | b :: rest =>
        let out2 := out ++ [b]
        if s ≤ out2.length then .done rest out2
        else processBitsAux s d n rest out2
      | [] => .err .readFailed

/-- Instrumented twin of `mainLoop`: same translation of the decision-byte
loop, except that an `Ok` result also carries the input left unread when
the loop ended.  `mainLoopAux_refines` proves it projects onto
`mainLoop`. -/
def mainLoopAux (s : Nat) :
    Nat → List Nat → List Nat → Except Lz10Error (List Nat × List Nat)
  | _, [], out => .ok ([], out)
  | 0, b :: l, out => .ok (b :: l, out)
  | fuel + 1, d :: rest, out =>
    match processBitsAux s d 8 rest out with
    | .err e => .error e
    | .done rest2 o => .ok (rest2, o)
    | .more rest2 out2 => mainLoopAux s fuel rest2 out2

/-! ### Helper lemmas -/

/-- The back-reference copy loop appends exactly `n` bytes. -/
lemma pushRun_length : ∀ (n k win : Nat) (out : List Nat),
    (pushRun win k n out).length = out.length + n := by
  intro n
  induction n with
  | zero => intro k win out; rfl
  | succ n ih =>
    intro k win out
    rw [pushRun, ih]
    simp
    omega

/-- Reading at index `out.length - 1 + k` of `out` extended by `k` copies of
its last element gives that last element again. -/
lemma getD_append_replicate_last (out : List Nat) (h : out ≠ []) (k : Nat) :
    (out ++ List.replicate k (out.getLast h)).getD (out.length - 1 + k) 0 =
      out.getLast h := by
  have hlen : 0 < out.length := List.length_pos.mpr h
  cases k with
  | zero =>
    simp only [List.replicate, List.append_nil, Nat.add_zero]
    rw [List.getD_eq_getElem _ _ (by omega), List.getLast_eq_getElem]
  | succ j =>
    rw [List.getD_append_right _ _ _ _ (by omega)]
    have hj : out.length - 1 + (j + 1) - out.length = j := by omega
    rw [hj, List.getD_eq_getElem _ _ (by simp), List.getElem_replicate]

/-- A back-reference with `window_offset = output.length - 1` (offset 0)
appends copies of the most recently written byte: each appended byte is the
source of the next one. -/
lemma pushRun_replicate : ∀ (L : Nat) (k : Nat) (out : List Nat) (h : out ≠ []),
    pushRun (out.length - 1) k L (out ++ List.replicate k (out.getLast h)) =
      out ++ List.replicate (k + L) (out.getLast h) := by
  intro L
  induction L with
  | zero => intro k out h; rw [pushRun]; rfl
  | succ L ih =>
    intro k out h
    rw [pushRun]
    have hidx : (out ++ List.replicate k (out.getLast h)).getD
        (out.length - 1 + k) 0 = out.getLast h :=
      getD_append_replicate_last out h k
    rw [hidx, List.append_assoc]
    have hrep : List.replicate k (out.getLast h) ++ [out.getLast h] =
        List.replicate (k + 1) (out.getLast h) :=
      (List.replicate_succ' k (out.getLast h)).symm
    rw [hrep, ih (k + 1) out h]
    have : k + 1 + L = k + (L + 1) := by omega
    rw [this]

/-- Unfolding equation for `processBits`: a set decision bit with at least
two input bytes left processes one back-reference unit. -/
lemma processBits_succ_bit1 (s d n b0 b1 : Nat) (rest out : List Nat)
    (hbit : d &&& (1 <<< n) ≠ 0) :
    processBits s d (n + 1) (b0 :: b1 :: rest) out =
      if out.length ≤ (256 * b0 + b1) &&& 0xFFF then
        .err .cannotReferencePastData
      else
        if s ≤ (pushRun (out.length - ((256 * b0 + b1) &&& 0xFFF) - 1) 0
            (((256 * b0 + b1) >>> 12) + 3) out).length then
          .done (pushRun (out.length - ((256 * b0 + b1) &&& 0xFFF) - 1) 0
            (((256 * b0 + b1) >>> 12) + 3) out)
        else
          processBits s d n rest
            (pushRun (out.length - ((256 * b0 + b1) &&& 0xFFF) - 1) 0
              (((256 * b0 + b1) >>> 12) + 3) out) := by
  simp only [processBits, if_pos hbit]

/-- Unfolding equation for `processBits`: a clear decision bit with input
left appends one literal byte. -/
lemma processBits_succ_bit0 (s d n b : Nat) (rest out : List Nat)
    (hbit : ¬d &&& (1 <<< n) ≠ 0) :
    processBits s d (n + 1) (b :: rest) out =
      if s ≤ (out ++ [b]).length then .done (out ++ [b])
      else processBits s d n rest (out ++ [b]) := by
  simp only [processBits, if_neg hbit]

/-- Unfolding equation for `processBits`: with no input left, both the
literal read and the pointer-word read fail. -/
lemma processBits_succ_nil (s d n : Nat) (out : List Nat) :
    processBits s d (n + 1) [] out = .err .readFailed := by
  simp only [processBits]
  split <;> rfl

/-- Unfolding equation for `processBits`: a set decision bit with a single
input byte left fails reading the 16-bit pointer word. -/
lemma processBits_succ_one_bit1 (s d n b : Nat) (out : List Nat)
    (hbit : d &&& (1 <<< n) ≠ 0) :
    processBits s d (n + 1) [b] out = .err .readFailed := by
  simp only [processBits, if_pos hbit]

/-- Unfolding equation for `decompress_lz10` on an input long enough to
contain the whole header. -/
lemma decompress_cons (m b0 b1 b2 : Nat) (rest2 : List Nat) :
    decompress_lz10 (m :: b0 :: b1 :: b2 :: rest2) =
      if m ≠ 0x10 then .error (.magicNumberMismatch m)
      else if b0 + 256 * b1 + 65536 * b2 = 0 then .error .invalidSize
      else mainLoop (b0 + 256 * b1 + 65536 * b2) rest2.length rest2 [] := by
  simp only [decompress_lz10]

/-- Size invariant of the inner bit loop: entered with output shorter than
the declared size `s` and byte-valued input, it returns `done` only with
between `s` and `s + 17` bytes (the unit crossing the threshold adds at
most 18), and falls through to the next decision byte only with output
still shorter than `s` and byte-valued remaining input. -/
lemma processBits_bound (s d : Nat) : ∀ (n : Nat) (input out : List Nat),
    (∀ b ∈ input, b < 256) → out.length < s →
    (match processBits s d n input out with
      | .err _ => True
      | .done o => s ≤ o.length ∧ o.length ≤ s + 17
      | .more i o => o.length < s ∧ ∀ b ∈ i, b < 256) := by
  intro n
  induction n with
  | zero =>
    intro input out hb ho
    rw [processBits]
    exact ⟨ho, hb⟩
  | succ n ih =>
    intro input out hb ho
    by_cases hbit : d &&& (1 <<< n) ≠ 0
    · rcases input with _ | ⟨b0, _ | ⟨b1, rest⟩⟩
      · rw [processBits_succ_nil]
        trivial
      · rw [processBits_succ_one_bit1 s d n b0 out hbit]
        trivial
      · have hb0 : b0 < 256 := hb b0 (by simp)
        have hb1 : b1 < 256 := hb b1 (by simp)
        have hrest : ∀ b ∈ rest, b < 256 := fun b hm => hb b (by simp [hm])
        have hlen18 : ((256 * b0 + b1) >>> 12) + 3 ≤ 18 := by
          rw [Nat.shiftRight_eq_div_pow]
          have h1 : (256 * b0 + b1) / 2 ^ 12 ≤ 65535 / 2 ^ 12 :=
            Nat.div_le_div_right (by omega)
          norm_num at h1
          omega
        have hx : (pushRun (out.length - ((256 * b0 + b1) &&& 0xFFF) - 1) 0
            (((256 * b0 + b1) >>> 12) + 3) out).length =
            out.length + (((256 * b0 + b1) >>> 12) + 3) :=
          pushRun_length _ _ _ _
        rw [processBits_succ_bit1 s d n b0 b1 rest out hbit]
        by_cases hoff : out.length ≤ (256 * b0 + b1) &&& 0xFFF
        · rw [if_pos hoff]
          trivial
        · rw [if_neg hoff]
          by_cases hstop : s ≤ (pushRun
              (out.length - ((256 * b0 + b1) &&& 0xFFF) - 1) 0
              (((256 * b0 + b1) >>> 12) + 3) out).length
          · rw [if_pos hstop]
            exact ⟨hstop, by omega⟩
          · rw [if_neg hstop]
            exact ih rest _ hrest (by omega)
    · rcases input with _ | ⟨b, rest⟩
      · rw [processBits_succ_nil]
        trivial
      · have hrest : ∀ x ∈ rest, x < 256 := fun x hm => hb x (by simp [hm])
        rw [processBits_succ_bit0 s d n b rest out hbit]
        by_cases hstop : s ≤ (out ++ [b]).length
        · rw [if_pos hstop]
          refine ⟨hstop, ?_⟩
          simp only [List.length_append, List.length_singleton]
          omega
        · rw [if_neg hstop]
          refine ih rest _ hrest ?_
          simp only [List.length_append, List.length_singleton]
          simp only [List.length_append, List.length_singleton] at hstop
          omega

/-- Size invariant of the decision-byte loop: entered with output shorter
than the declared size `s`, any `Ok` result has at most `s + 17` bytes. -/
lemma mainLoop_bound (s : Nat) : ∀ (fuel : Nat) (input out : List Nat),
    (∀ b ∈ input, b < 256) → out.length < s →
    ∀ res, mainLoop s fuel input out = .ok res → res.length ≤ s + 17 := by
  intro fuel
  induction fuel with
  | zero =>
    intro input out hb ho res h
    rcases input with _ | ⟨d, rest⟩ <;>
      · rw [mainLoop] at h
        cases h
        omega
  | succ fuel ih =>
    intro input out hb ho res h
    rcases input with _ | ⟨d, rest⟩
    · rw [mainLoop] at h
      cases h
      omega
    · rw [mainLoop] at h
      have hrest : ∀ b ∈ rest, b < 256 := fun b hm => hb b (by simp [hm])
      have hkey := processBits_bound s d 8 rest out hrest ho
      cases hp : processBits s d 8 rest out with
      | err e =>
        rw [hp] at h
        simp at h
      | done o =>
        rw [hp] at h hkey
        cases h
        exact hkey.2
      | more i o =>
        rw [hp] at h hkey
        simp only at h hkey
        exact ih i o hkey.2 hkey.1 res h

/-- Top-level length bound: whenever `decompress_lz10` returns `Ok` on a
byte-valued input, the output has at most `declaredSize + 17` bytes. -/
lemma decompress_len_bound : ∀ (input res : List Nat),
    (∀ b ∈ input, b < 256) → decompress_lz10 input = .ok res →
    res.length ≤ declaredSize input + 17 := by
  intro input res hb h
  rcases input with _ | ⟨m, _ | ⟨b0, _ | ⟨b1, _ | ⟨b2, rest2⟩⟩⟩⟩
  · rw [decompress_lz10] at h
    cases h
  · rw [decompress_lz10] at h
    · by_cases hm : m ≠ 0x10
      · rw [if_pos hm] at h
        cases h
      · rw [if_neg hm] at h
        cases h
    · intro b0 b1 b2 rest2 hc
      cases hc
  · rw [decompress_lz10] at h
    · by_cases hm : m ≠ 0x10
      · rw [if_pos hm] at h
        cases h
      · rw [if_neg hm] at h
        cases h
    · intro b0 b1 b2 rest2 hc
      cases hc
  · rw [decompress_lz10] at h
    · by_cases hm : m ≠ 0x10
      · rw [if_pos hm] at h
        cases h
      · rw [if_neg hm] at h
        cases h
    · intro b0 b1 b2 rest2 hc
      cases hc
  · rw [decompress_cons] at h
    by_cases hm : m ≠ 0x10
    · rw [if_pos hm] at h
      simp at h
    · rw [if_neg hm] at h
      by_cases hsz : b0 + 256 * b1 + 65536 * b2 = 0
      · rw [if_pos hsz] at h
        simp at h
      · rw [if_neg hsz] at h
        have hrest : ∀ b ∈ rest2, b < 256 := fun b hmem => hb b (by simp [hmem])
        have hres := mainLoop_bound (b0 + 256 * b1 + 65536 * b2) rest2.length
          rest2 [] hrest (by simp; omega) res h
        simpa [declaredSize] using hres

/-- Back-reference processed with empty output: the offset check
`output.len() <= offset` always holds at length 0, whatever the pointer
word, so the result is the back-reference-out-of-range error. -/
lemma backref_empty_out (s d n b0 b1 : Nat) (rest : List Nat)
    (hbit : d &&& (1 <<< n) ≠ 0) :
    processBits s d (n + 1) (b0 :: b1 :: rest) [] =
      .err .cannotReferencePastData := by
  rw [processBits_succ_bit1 s d n b0 b1 rest [] hbit]
  rw [if_pos (by simp : List.length ([] : List Nat) ≤ (256 * b0 + b1) &&& 0xFFF)]

/-- Unfolding equation for `processBitsAux`, back-reference case. -/
lemma processBitsAux_succ_bit1 (s d n b0 b1 : Nat) (rest out : List Nat)
    (hbit : d &&& (1 <<< n) ≠ 0) :
    processBitsAux s d (n + 1) (b0 :: b1 :: rest) out =
      if out.length ≤ (256 * b0 + b1) &&& 0xFFF then
        .err .cannotReferencePastData
      else
        if s ≤ (pushRun (out.length - ((256 * b0 + b1) &&& 0xFFF) - 1) 0
            (((256 * b0 + b1) >>> 12) + 3) out).length then
          .done rest (pushRun (out.length - ((256 * b0 + b1) &&& 0xFFF) - 1) 0
            (((256 * b0 + b1) >>> 12) + 3) out)
        else
          processBitsAux s d n rest
            (pushRun (out.length - ((256 * b0 + b1) &&& 0xFFF) - 1) 0
              (((256 * b0 + b1) >>> 12) + 3) out) := by
  simp only [processBitsAux, if_pos hbit]

/-- Unfolding equation for `processBitsAux`, literal case. -/
lemma processBitsAux_succ_bit0 (s d n b : Nat) (rest out : List Nat)
    (hbit : ¬d &&& (1 <<< n) ≠ 0) :
    processBitsAux s d (n + 1) (b :: rest) out =
      if s ≤ (out ++ [b]).length then .done rest (out ++ [b])
      else processBitsAux s d n rest (out ++ [b]) := by
  simp only [processBitsAux, if_neg hbit]

/-- Unfolding equation for `processBitsAux`, empty input. -/
lemma processBitsAux_succ_nil (s d n : Nat) (out : List Nat) :
    processBitsAux s d (n + 1) [] out = .err .readFailed := by
  simp only [processBitsAux]
  split <;> rfl

/-- Unfolding equation for `processBitsAux`, set bit with one byte left. -/
lemma processBitsAux_succ_one_bit1 (s d n b : Nat) (out : List Nat)
    (hbit : d &&& (1 <<< n) ≠ 0) :
    processBitsAux s d (n + 1) [b] out = .err .readFailed := by
  simp only [processBitsAux, if_pos hbit]

/-- The instrumented bit loop projects onto the original one: forgetting
the recorded unread input gives back `processBits` exactly. -/
lemma processBitsAux_refines (s d : Nat) : ∀ (n : Nat) (input out : List Nat),
    processBits s d n input out =
      (match processBitsAux s d n input out with
        | .err e => .err e
        | .done _ o => .done o
        | .more i o => .more i o) := by
  intro n
  induction n with
  | zero =>
    intro input out
    rw [processBits, processBitsAux]
  | succ n ih =>
    intro input out
    by_cases hbit : d &&& (1 <<< n) ≠ 0
    · rcases input with _ | ⟨b0, _ | ⟨b1, rest⟩⟩
      · rw [processBits_succ_nil, processBitsAux_succ_nil]
      · rw [processBits_succ_one_bit1 s d n b0 out hbit,
          processBitsAux_succ_one_bit1 s d n b0 out hbit]
      · rw [processBits_succ_bit1 s d n b0 b1 rest out hbit,
          processBitsAux_succ_bit1 s d n b0 b1 rest out hbit]
        by_cases hoff : out.length ≤ (256 * b0 + b1) &&& 0xFFF
        · rw [if_pos hoff, if_pos hoff]
        · rw [if_neg hoff, if_neg hoff]
          by_cases hstop : s ≤ (pushRun
              (out.length - ((256 * b0 + b1) &&& 0xFFF) - 1) 0
              (((256 * b0 + b1) >>> 12) + 3) out).length
          · rw [if_pos hstop, if_pos hstop]
          · rw [if_neg hstop, if_neg hstop]
            exact ih rest _
    · rcases input with _ | ⟨b, rest⟩
      · rw [processBits_succ_nil, processBitsAux_succ_nil]
      · rw [processBits_succ_bit0 s d n b rest out hbit,
          processBitsAux_succ_bit0 s d n b rest out hbit]
        by_cases hstop : s ≤ (out ++ [b]).length
        · rw [if_pos hstop, if_pos hstop]
        · rw [if_neg hstop, if_neg hstop]
          exact ih rest _

/-- The size-stop exit of the bit loop fires only once the output has
reached the declared size: a `done` result is never shorter than `s`. -/
lemma processBitsAux_done_ge (s d : Nat) : ∀ (n : Nat) (input out r2 o : List Nat),
    processBitsAux s d n input out = .done r2 o → s ≤ o.length := by
  intro n
  induction n with
  | zero =>
    intro input out r2 o h
    rw [processBitsAux] at h
    cases h
  | succ n ih =>
    intro input out r2 o h
    by_cases hbit : d &&& (1 <<< n) ≠ 0
    · rcases input with _ | ⟨b0, _ | ⟨b1, rest⟩⟩
      · rw [processBitsAux_succ_nil] at h
        cases h
      · rw [processBitsAux_succ_one_bit1 s d n b0 out hbit] at h
        cases h
      · rw [processBitsAux_succ_bit1 s d n b0 b1 rest out hbit] at h
        by_cases hoff : out.length ≤ (256 * b0 + b1) &&& 0xFFF
        · rw [if_pos hoff] at h
          cases h
        · rw [if_neg hoff] at h
          by_cases hstop : s ≤ (pushRun
              (out.length - ((256 * b0 + b1) &&& 0xFFF) - 1) 0
              (((256 * b0 + b1) >>> 12) + 3) out).length
          · rw [if_pos hstop] at h
            cases h
            exact hstop
          · rw [if_neg hstop] at h
            exact ih rest _ r2 o h
    · rcases input with _ | ⟨b, rest⟩
      · rw [processBitsAux_succ_nil] at h
        cases h
      · rw [processBitsAux_succ_bit0 s d n b rest out hbit] at h
        by_cases hstop : s ≤ (out ++ [b]).length
        · rw [if_pos hstop] at h
          cases h
          exact hstop
        · rw [if_neg hstop] at h
          exact ih rest _ r2 o h

/-- The bit loop only consumes input: the residue of a `more` fall-through
is no longer than the input it started from. -/
lemma processBitsAux_more_length (s d : Nat) : ∀ (n : Nat) (input out i o : List Nat),
    processBitsAux s d n input out = .more i o → i.length ≤ input.length := by
  intro n
  induction n with
  | zero =>
    intro input out i o h
    rw [processBitsAux] at h
    cases h
    exact Nat.le_refl _
  | succ n ih =>
    intro input out i o h
    by_cases hbit : d &&& (1 <<< n) ≠ 0
    · rcases input with _ | ⟨b0, _ | ⟨b1, rest⟩⟩
      · rw [processBitsAux_succ_nil] at h
        cases h
      · rw [processBitsAux_succ_one_bit1 s d n b0 out hbit] at h
        cases h
      · rw [processBitsAux_succ_bit1 s d n b0 b1 rest out hbit] at h
        by_cases hoff : out.length ≤ (256 * b0 + b1) &&& 0xFFF
        · rw [if_pos hoff] at h
          cases h
        · rw [if_neg hoff] at h
          by_cases hstop : s ≤ (pushRun
              (out.length - ((256 * b0 + b1) &&& 0xFFF) - 1) 0
              (((256 * b0 + b1) >>> 12) + 3) out).length
          · rw [if_pos hstop] at h
            cases h
          · rw [if_neg hstop] at h
            have h1 := ih rest _ i o h
            simp only [List.length_cons]
            omega
    · rcases input with _ | ⟨b, rest⟩
      · rw [processBitsAux_succ_nil] at h
        cases h
      · rw [processBitsAux_succ_bit0 s d n b rest out hbit] at h
        by_cases hstop : s ≤ (out ++ [b]).length
        · rw [if_pos hstop] at h
          cases h
        · rw [if_neg hstop] at h
          have h1 := ih rest _ i o h
          simp only [List.length_cons]
          omega

/-- The instrumented decision-byte loop projects onto the original one:
forgetting the recorded unread input gives back `mainLoop` exactly. -/
lemma mainLoopAux_refines (s : Nat) : ∀ (fuel : Nat) (input out : List Nat),
    mainLoop s fuel input out =
      Except.map Prod.snd (mainLoopAux s fuel input out) := by
  intro fuel
  induction fuel with
  | zero =>
    intro input out
    rcases input with _ | ⟨d, rest⟩ <;> rfl
  | succ fuel ih =>
    intro input out
    rcases input with _ | ⟨d, rest⟩
    · rfl
    · rw [mainLoop, mainLoopAux, processBitsAux_refines s d 8 rest out]
      cases hp : processBitsAux s d 8 rest out with
      | err e => rfl
      | done rr oo => rfl
      | more rr oo => exact ih rr oo

/-- An `Ok` of the instrumented loop that is still short of the declared
size can only have come from the input-exhausted exit: when the loop was
started with enough fuel (at least the input length, as `decompress_lz10`
does), the recorded unread input is empty. -/
lemma mainLoopAux_short (s : Nat) : ∀ (fuel : Nat) (input out r2 res : List Nat),
    input.length ≤ fuel → mainLoopAux s fuel input out = .ok (r2, res) →
    res.length < s → r2 = [] := by
  intro fuel
  induction fuel with
  | zero =>
    intro input out r2 res hle h _hlt
    rcases input with _ | ⟨d, rest⟩
    · rw [mainLoopAux] at h
      cases h
      rfl
    · simp at hle
  | succ fuel ih =>
    intro input out r2 res hle h hlt
    rcases input with _ | ⟨d, rest⟩
    · rw [mainLoopAux] at h
      cases h
      rfl
    · rw [mainLoopAux] at h
      cases hp : processBitsAux s d 8 rest out with
      | err e =>
        rw [hp] at h
        cases h
      | done rr oo =>
        rw [hp] at h
        cases h
        exact absurd hlt
          (Nat.not_lt.mpr (processBitsAux_done_ge s d 8 rest out _ _ hp))
      | more rr oo =>
        rw [hp] at h
        have h1 := processBitsAux_more_length s d 8 rest out rr oo hp
        have h2 : rest.length ≤ fuel := by
          simp only [List.length_cons] at hle
          omega
        exact ih rr oo r2 res (le_trans h1 h2) h hlt

/-- A `decompress_lz10` output shorter than the declared size arises only
from input exhaustion: the instrumented run of the same stream ends with
the whole input consumed. -/
lemma decompress_short_exhausts :
    ∀ (m b0 b1 b2 : Nat) (rest2 res : List Nat),
    decompress_lz10 (m :: b0 :: b1 :: b2 :: rest2) = .ok res →
    res.length < b0 + 256 * b1 + 65536 * b2 →
    mainLoopAux (b0 + 256 * b1 + 65536 * b2) rest2.length rest2 [] =
      .ok ([], res) := by
  intro m b0 b1 b2 rest2 res h hlt
  rw [decompress_cons] at h
  by_cases hm : m ≠ 0x10
  · rw [if_pos hm] at h
    cases h
  · rw [if_neg hm] at h
    by_cases hsz : b0 + 256 * b1 + 65536 * b2 = 0
    · rw [if_pos hsz] at h
      cases h
    · rw [if_neg hsz] at h
      rw [mainLoopAux_refines (b0 + 256 * b1 + 65536 * b2) rest2.length
        rest2 []] at h
      cases ha : mainLoopAux (b0 + 256 * b1 + 65536 * b2) rest2.length
          rest2 [] with
      | error e =>
        rw [ha] at h
        cases h
      | ok pr =>
        obtain ⟨r2, res2⟩ := pr
        rw [ha] at h
        cases h
        have hr2 : r2 = [] :=
          mainLoopAux_short (b0 + 256 * b1 + 65536 * b2) rest2.length rest2
            [] r2 res2 (Nat.le_refl _) ha hlt
        rw [hr2]

/-- Claim C1, counterexample: on the accepted stream
`[0x10, 0x02,0x00,0x00, 0x40, 0x41, 0x20,0x00]` the declared size is 2, yet
the output has 6 bytes.  The length-5 back-reference run starting at output
length 1 is appended in full before the size check runs, so the claim that
the output is never longer than the declared size (because the function
stops after every single appended byte) is false. -/
theorem c1_counterexample :
    decompress_lz10 [0x10, 0x02, 0x00, 0x00, 0x40, 0x41, 0x20, 0x00] =
      .ok [65, 65, 65, 65, 65, 65] := rfl

/-- Claim C1, amended: the size check runs after each appended unit (one
literal byte or one whole back-reference run), not after every single byte.
A literal unit that reaches the declared size stops immediately with output
length exactly `s`; a back-reference run is appended in full first, so an
`Ok` output can exceed `s`, but never by more than 17 bytes; and an `Ok`
output shorter than `s` arises only when the input ends early: the third
conjunct shows via the instrumented twin `mainLoopAux` (which also returns
the unread input and projects onto `mainLoop` by `mainLoopAux_refines`)
that such a run ends with the entire input consumed. -/
theorem c1_theorem :
    (∀ (s d n b : Nat) (rest out : List Nat),
      d &&& (1 <<< n) = 0 → out.length + 1 = s →
      processBits s d (n + 1) (b :: rest) out = .done (out ++ [b]) ∧
        (out ++ [b]).length = s) ∧
    (∀ (input res : List Nat), (∀ x ∈ input, x < 256) →
      decompress_lz10 input = .ok res →
      res.length ≤ declaredSize input + 17) ∧
    (∀ (m b0 b1 b2 : Nat) (rest2 res : List Nat),
      decompress_lz10 (m :: b0 :: b1 :: b2 :: rest2) = .ok res →
      res.length < b0 + 256 * b1 + 65536 * b2 →
      mainLoopAux (b0 + 256 * b1 + 65536 * b2) rest2.length rest2 [] =
        .ok ([], res)) := by
  refine ⟨?_, decompress_len_bound, decompress_short_exhausts⟩
  intro s d n b rest out hbit hlen
  have hbit2 : ¬d &&& (1 <<< n) ≠ 0 := by simpa using hbit
  rw [processBits_succ_bit0 s d n b rest out hbit2]
  have hlen2 : (out ++ [b]).length = s := by
    simp only [List.length_append, List.length_singleton]
    omega
  rw [if_pos hlen2.symm.le]
  exact ⟨rfl, hlen2⟩

/-- Claim C1, witness: a literal stop at exactly the declared size 1; the
6-byte overshoot output of the counterexample satisfying the `s + 17` bound
for declared size 2; and a truncated stream (declared size 9, eight
literals, input exhausted at the decision-byte boundary) whose short output
comes with the whole input consumed. -/
theorem c1_witness :
    (processBits 1 0 8 [65] [] = .done [65] ∧ ([65] : List Nat).length = 1) ∧
    (([65, 65, 65, 65, 65, 65] : List Nat).length ≤
      declaredSize [0x10, 0x02, 0x00, 0x00, 0x40, 0x41, 0x20, 0x00] + 17) ∧
    (mainLoopAux 9 9 [0, 65, 66, 67, 68, 69, 70, 71, 72] [] =
      .ok ([], [65, 66, 67, 68, 69, 70, 71, 72])) :=
  ⟨c1_theorem.1 1 0 7 65 [] [] (by decide) (by decide),
   c1_theorem.2.1 [0x10, 0x02, 0x00, 0x00, 0x40, 0x41, 0x20, 0x00]
     [65, 65, 65, 65, 65, 65] (by decide) rfl,
   c1_theorem.2.2 0x10 9 0 0 [0, 65, 66, 67, 68, 69, 70, 71, 72]
     [65, 66, 67, 68, 69, 70, 71, 72] rfl (by decide)⟩

/-- Claim C2, counterexample: the header of
`[0x10, 0x02,0x00,0x00, 0x00]` is valid (magic 0x10, size 2) and the input
is exhausted while reading the first literal byte, mid-decision-byte; the
result is the hard failure `Err(Io)`, not `Ok` with the output so far. -/
theorem c2_counterexample :
    decompress_lz10 [0x10, 0x02, 0x00, 0x00, 0x00] = .error .readFailed := rfl

/-- Claim C2, amended: only exhaustion at a decision-byte boundary is
graceful.  If the input ends exactly where the next decision byte would be
read, the loop returns `Ok` with the output so far (in particular a stream
that is only a valid header yields `Ok` with empty output); but exhaustion
while reading a literal byte, or while reading the 16-bit pointer word
(no bytes or a single byte left), is a hard `Io` failure. -/
theorem c2_theorem :
    (∀ (s fuel : Nat) (out : List Nat), mainLoop s fuel [] out = .ok out) ∧
    (∀ (s d n : Nat) (out : List Nat),
      processBits s d (n + 1) [] out = .err .readFailed) ∧
    (∀ (s d n b : Nat) (out : List Nat), d &&& (1 <<< n) ≠ 0 →
      processBits s d (n + 1) [b] out = .err .readFailed) ∧
    (∀ s0 s1 s2 : Nat, s0 + 256 * s1 + 65536 * s2 ≠ 0 →
      decompress_lz10 [0x10, s0, s1, s2] = .ok []) := by
  refine ⟨?_, ?_, ?_, ?_⟩
  · intro s fuel out
    cases fuel <;> rfl
  · intro s d n out
    exact processBits_succ_nil s d n out
  · intro s d n b out hbit
    exact processBits_succ_one_bit1 s d n b out hbit
  · intro s0 s1 s2 hsz
    rw [decompress_cons]
    rw [if_neg (by simp)]
    rw [if_neg hsz]
    rfl

/-- Claim C2, witness: concrete instances of the four conjuncts. -/
theorem c2_witness :
    (mainLoop 5 3 [] [7] = .ok [7]) ∧
    (processBits 5 0 3 [] [9] = .err .readFailed) ∧
    (processBits 5 128 8 [4] [] = .err .readFailed) ∧
    (decompress_lz10 [0x10, 3, 0, 0] = .ok []) :=
  ⟨c2_theorem.1 5 3 [7], c2_theorem.2.1 5 0 2 [9],
   c2_theorem.2.2.1 5 128 7 4 [] (by decide),
   c2_theorem.2.2.2 3 0 0 (by decide)⟩

/-- Claim C3, counterexample: on
`[0x10, 0x06,0x00,0x00, 0x00, 0x41,0x42,0x43, 0x80, 0x20,0x00]` the result
is not `"ABCCCC"`.  The decision byte 0x00 governs the next eight units,
all literals, so 0x80 is consumed as the fourth literal rather than as a
second decision byte. -/
theorem c3_counterexample :
    decompress_lz10 [0x10, 0x06, 0x00, 0x00, 0x00, 0x41, 0x42, 0x43,
        0x80, 0x20, 0x00] ≠ .ok [65, 66, 67, 67, 67, 67] := by
  intro h
  have he : decompress_lz10 [0x10, 0x06, 0x00, 0x00, 0x00, 0x41, 0x42, 0x43,
      0x80, 0x20, 0x00] = .ok [65, 66, 67, 128, 32, 0] := rfl
  rw [he] at h
  injection h with h2
  simp at h2

/-- Claim C3, amended: on that input the output is the 6 bytes
`"ABC"` followed by `0x80, 0x20, 0x00` — the three remaining input bytes
are consumed as literals under the all-zero decision byte, and the size
stop triggers after the sixth literal. -/
theorem c3_theorem :
    decompress_lz10 [0x10, 0x06, 0x00, 0x00, 0x00, 0x41, 0x42, 0x43,
        0x80, 0x20, 0x00] = .ok [0x41, 0x42, 0x43, 0x80, 0x20, 0x00] := rfl

/-- Claim C7: a decision bit of 1 processed while the output is still empty
always fails with `CannotReferencePastData`, whatever the pointer word,
because `output.len() <= offset` holds at length 0 for every offset.  The
second conjunct states it end to end: any accepted header followed by a
decision byte with the top bit set and a readable pointer word fails so. -/
theorem c7_theorem :
    (∀ (s d n b0 b1 : Nat) (rest : List Nat), d &&& (1 <<< n) ≠ 0 →
      processBits s d (n + 1) (b0 :: b1 :: rest) [] =
        .err .cannotReferencePastData) ∧
    (∀ (s0 s1 s2 d b0 b1 : Nat) (rest : List Nat),
      s0 + 256 * s1 + 65536 * s2 ≠ 0 → d &&& 128 ≠ 0 →
      decompress_lz10 (0x10 :: s0 :: s1 :: s2 :: d :: b0 :: b1 :: rest) =
        .error .cannotReferencePastData) := by
  constructor
  · intro s d n b0 b1 rest hbit
    exact backref_empty_out s d n b0 b1 rest hbit
  · intro s0 s1 s2 d b0 b1 rest hsz hbit
    rw [decompress_cons]
    rw [if_neg (by simp)]
    rw [if_neg hsz]
    simp only [List.length_cons]
    rw [mainLoop]
    have h1 : processBits (s0 + 256 * s1 + 65536 * s2) d 8 (b0 :: b1 :: rest)
        [] = .err .cannotReferencePastData :=
      backref_empty_out (s0 + 256 * s1 + 65536 * s2) d 7 b0 b1 rest hbit
    rw [h1]

/-- Claim C7, witness: concrete instances of both conjuncts. -/
theorem c7_witness :
    (processBits 5 128 8 [0, 0] [] = .err .cannotReferencePastData) ∧
    (decompress_lz10 [0x10, 1, 0, 0, 0x80, 0, 0] =
      .error .cannotReferencePastData) :=
  ⟨c7_theorem.1 5 128 7 0 0 [] (by decide),
   c7_theorem.2 1 0 0 0x80 0 0 [] (by decide) (by decide)⟩

/-- Claim C8: with non-empty output, a back-reference whose pointer word
has offset bits 0 copies the most recently written byte: the run appended
before the size check is exactly `length` copies of `output.getLast`, each
appended byte serving as the source of the next (self-overlapping copy);
the unit then continues into the size check as usual, so a run that does
not hit the declared-size stop leaves exactly those `length` copies. -/
theorem c8_theorem (s d n b0 b1 : Nat) (rest out : List Nat) (h : out ≠ [])
    (hbit : d &&& (1 <<< n) ≠ 0) (hoff : (256 * b0 + b1) &&& 0xFFF = 0) :
    processBits s d (n + 1) (b0 :: b1 :: rest) out =
      if s ≤ (out ++ List.replicate (((256 * b0 + b1) >>> 12) + 3)
          (out.getLast h)).length then
        .done (out ++ List.replicate (((256 * b0 + b1) >>> 12) + 3)
          (out.getLast h))
      else
        processBits s d n rest
          (out ++ List.replicate (((256 * b0 + b1) >>> 12) + 3)
            (out.getLast h)) := by
  rw [processBits_succ_bit1 s d n b0 b1 rest out hbit]
  rw [hoff]
  have hpos : 0 < out.length := List.length_pos.mpr h
  rw [if_neg (by omega)]
  have hrun : pushRun (out.length - 0 - 1) 0 (((256 * b0 + b1) >>> 12) + 3)
      out = out ++ List.replicate (((256 * b0 + b1) >>> 12) + 3)
        (out.getLast h) := by
    have hk := pushRun_replicate (((256 * b0 + b1) >>> 12) + 3) 0 out h
    simpa using hk
  rw [hrun]

/-- Claim C8, witness: a length-5 offset-0 back-reference from output
`[65]` appends five copies of 65 and, with declared size 100 not reached,
falls through to the next bit with output `[65, 65, 65, 65, 65, 65]`. -/
theorem c8_witness :
    processBits 100 1 1 [0x20, 0] [65] = .more [] [65, 65, 65, 65, 65, 65] := by
  have h := c8_theorem 100 1 0 0x20 0 [] [65] (by decide) (by decide) (by decide)
  rw [h]
  rfl

/-- Claim C9: whenever `decompress_lz10` returns `Ok` on a byte-valued
input (every element below 256, as a Rust `u8` is), the output length is at
most the declared decompressed size plus 17: the size check runs once per
appended unit and a unit appends at most 18 bytes (a back-reference run of
length `(word >> 12) + 3 <= 18`), starting from a length strictly below the
declared size. -/
theorem c9_theorem : ∀ (input res : List Nat),
    (∀ b ∈ input, b < 256) → decompress_lz10 input = .ok res →
    res.length ≤ declaredSize input + 17 := decompress_len_bound

/-- Claim C9, witness: the overshooting stream with declared size 2
returns 6 bytes, within the bound 2 + 17. -/
theorem c9_witness :
    ([65, 65, 65, 65, 65, 65] : List Nat).length ≤
      declaredSize [0x10, 0x02, 0x00, 0x00, 0x40, 0x41, 0x20, 0x00] + 17 :=
  c9_theorem [0x10, 0x02, 0x00, 0x00, 0x40, 0x41, 0x20, 0x00]
    [65, 65, 65, 65, 65, 65] (by decide) rfl

/-- Claim C4, counterexample: the buffer `[1,0,0,0, 0,0,0,0]` declares one
entry whose pointer 0 is strictly less than `entryCount * 4 = 4`, pointing
inside the pointer header; the claim says this fails with `InvalidPointer`,
but `parse_text_file` performs no such check and decodes from position 0,
returning `Ok` with the single string `[1]` (the code unit 0x0001 read from
the count field itself, terminated by the zero unit that follows). -/
theorem c4_counterexample :
    parse_text_file [1, 0, 0, 0, 0, 0, 0, 0] = some (.ok [[1]]) := rfl

/-- Claim C4, amended: `parse_text_file` performs no pointer-range
validation against the header: there is no `InvalidPointer` error at all —
every error it returns is either the read failure `Io` (buffer exhausted
while reading the count or a pointer) or the UTF-16 decode failure — and a
pointer below `entryCount * 4` is followed like any other position. -/
theorem c4_theorem : ∀ (data : List Nat) (e : ParseTextError),
    parse_text_file data = some (.error e) →
    e = .readFailed ∨ e = .utf16Failed := by
  intro data e _h
  cases e
  · exact Or.inl rfl
  · exact Or.inr rfl

/-- Claim C4, witness: the empty buffer fails reading the count, an `Io`
error, which the theorem classifies. -/
theorem c4_witness :
    ParseTextError.readFailed = ParseTextError.readFailed ∨
      ParseTextError.readFailed = ParseTextError.utf16Failed :=
  c4_theorem [] .readFailed rfl

/-- Claim C5, counterexample: a 0x4F-byte ROM is shorter than 0x50; the
claim says the header read fails with a `TruncatedHeader` error value, but
the code has no such error: the slice `rom_data[0x4C..=0x4F]` panics, an
out-of-bounds crash modelled as `none`, with no error value returned. -/
theorem c5_counterexample :
    readRomHeaderFields (List.replicate 0x4F 0) = none := rfl

/-- Claim C5, amended: for every ROM shorter than 0x50 bytes, reading the
four header fields panics on an out-of-bounds slice (the ROM is too short
for at least the allocation-table-size slice at 0x4C..=0x4F); no
`TruncatedHeader` error value exists in the code. -/
theorem c5_theorem : ∀ rom : List Nat, rom.length < 0x50 →
    readRomHeaderFields rom = none := by
  intro rom h
  have h4 : sliceU32LE rom 0x4C = none := by
    rw [sliceU32LE, if_neg (by omega)]
  rw [readRomHeaderFields]
  cases h1 : sliceU32LE rom 0x40 with
  | none => rfl
  | some a =>
    cases h2 : sliceU32LE rom 0x44 with
    | none => rfl
    | some b =>
      cases h3 : sliceU32LE rom 0x48 with
      | none => rfl
      | some c => rw [h4]

/-- Claim C5, witness: the empty ROM. -/
theorem c5_witness : readRomHeaderFields [] = none :=
  c5_theorem [] (by decide)

/-- Claim C10: the buffer `[1,0,0,0, 100,0,0,0]` declares one entry with
pointer 100 while the buffer is 8 bytes long; `&data[pointer..]` is an
out-of-bounds slice and the code panics (`none`), rather than returning
`Ok` or an error value — `parse_text_file` is not total at its public
interface. -/
theorem c10_theorem :
    parse_text_file [1, 0, 0, 0, 100, 0, 0, 0] = none := rfl

/-- Claim C6: the classification step yields raw (the original bytes)
exactly when `decompress_lz10` fails; given a successful decompression to
`dd`, it yields decompressed-binary (payload `dd`) exactly when
`parse_text_file dd` returns an error value, and text (the decoded strings)
exactly when `parse_text_file dd` returns `Ok` with those strings. -/
theorem c6_theorem : ∀ data : List Nat,
    ((∃ e, decompress_lz10 data = .error e) ↔
      classify data = some (.raw data)) ∧
    (∀ dd, decompress_lz10 data = .ok dd →
      (((∃ e2, parse_text_file dd = some (.error e2)) ↔
          classify data = some (.decompressedBinary dd)) ∧
        (∀ strs, parse_text_file dd = some (.ok strs) ↔
          classify data = some (.text strs)))) := by
  intro data
  cases hd : decompress_lz10 data with
  | error e0 =>
    have hc : classify data = some (.raw data) := by
      rw [classify, hd]
    constructor
    · exact ⟨fun _ => hc, fun _ => ⟨e0, rfl⟩⟩
    · intro dd hdd
      cases hdd
  | ok d0 =>
    have hc : classify data = (match parse_text_file d0 with
        | none => none
        | some (.error _) => some (.decompressedBinary d0)
        | some (.ok strs) => some (.text strs)) := by
      rw [classify, hd]
    constructor
    · constructor
      · rintro ⟨e, he⟩
        cases he
      · intro hcl
        rw [hc] at hcl
        exfalso
        cases hp : parse_text_file d0 with
        | none =>
          rw [hp] at hcl
          cases hcl
        | some r =>
          cases r with
          | error e1 =>
            rw [hp] at hcl
            simp at hcl
          | ok strs0 =>
            rw [hp] at hcl
            simp at hcl
    · intro dd hdd
      injection hdd with hddx
      subst hddx
      constructor
      · cases hp : parse_text_file d0 with
        | none =>
          constructor
          · rintro ⟨e2, he2⟩
            cases he2
          · intro hcl
            rw [hc, hp] at hcl
            cases hcl
        | some r =>
          cases r with
          | error e1 =>
            constructor
            · intro _
              rw [hc, hp]
            · intro _
              exact ⟨e1, rfl⟩
          | ok strs0 =>
            constructor
            · rintro ⟨e2, he2⟩
              simp at he2
            · intro hcl
              rw [hc, hp] at hcl
              simp at hcl
      · intro strs
        cases hp : parse_text_file d0 with
        | none =>
          constructor
          · intro he
            cases he
          · intro hcl
            rw [hc, hp] at hcl
            cases hcl
        | some r =>
          cases r with
          | error e1 =>
            constructor
            · intro he
              simp at he
            · intro hcl
              rw [hc, hp] at hcl
              simp at hcl
          | ok strs0 =>
            constructor
            · intro he
              have hss : strs0 = strs := by
                simpa using he
              rw [hc, hp, hss]
            · intro hcl
              rw [hc, hp] at hcl
              have hss : strs0 = strs := by
                simpa using hcl
              rw [hss]

/-- Claim C6, witness: the empty buffer fails decompression (no magic
byte), so it classifies as raw with the original bytes. -/
theorem c6_witness : classify [] = some (.raw []) :=
  (c6_theorem []).1.mp ⟨.readFailed, rfl⟩
